import Mathlib

/-!
Verification development for the Schroedinger-Approximation repository
(WKB / Airy wavefunction assembler in Rust).

The Rust sources are shallowly embedded over exact rationals: `f64` values
are idealised as `ℚ` (every machine constant that appears — `f64::EPSILON`,
its square root, decimal literals like `1e-7` — is an exact rational, and is
embedded as such).  Complex numbers (`num::Complex64`) are embedded as pairs
of rationals.  Potentially non-terminating Rust loops are embedded with an
explicit fuel parameter; a Rust `panic!`/`assert!` is embedded as `Option`
failure (`none`).
-/

/-- Complex numbers over ℚ, embedding `num::complex::Complex64`
(`src/src/main.rs`).  Addition is the componentwise `Prod` addition, which
coincides with complex addition. -/
abbrev Qc : Type := ℚ × ℚ

/-- Complex multiplication on `Qc` (the `Mul` impl of `Complex64`). -/
def cMul (z w : Qc) : Qc := (z.1 * w.1 - z.2 * w.2, z.1 * w.2 + z.2 * w.1)

/-- Complex division on `Qc` (the `Div` impl of `Complex64`), via the
conjugate formula.  Division by complex zero is modelled by ℚ's total
division (`x / 0 = 0`); the embedded code only divides by nonzero constants
such as `complex(2.0, 0.0)`. -/
def cDiv (z w : Qc) : Qc :=
  ((z.1 * w.1 + z.2 * w.2) / (w.1 ^ 2 + w.2 ^ 2),
   (z.2 * w.1 - z.1 * w.2) / (w.1 ^ 2 + w.2 ^ 2))

/-- `Complex64::norm_sqr`: squared modulus. -/
def normSq (z : Qc) : ℚ := z.1 ^ 2 + z.2 ^ 2

/-- A sampled point, embedding `struct Point { x: f64, y: Complex64 }` from
`src/src/main.rs`. -/
structure Pt where
  x : ℚ
  y : Qc
deriving DecidableEq

instance : Inhabited Pt := ⟨⟨0, (0, 0)⟩⟩

/-- `trapezoidal_approx` (`src/src/main.rs` lines 81-83):
`complex(end.x - start.x, 0) * (start.y + end.y) / complex(2.0, 0.0)`. -/
def trapezoidal_approx (start fin : Pt) : Qc :=
  cDiv (cMul (fin.x - start.x, 0) (start.y + fin.y)) (2, 0)

/-- `index_to_range` (`src/src/main.rs` lines 85-87). -/
def index_to_range (x in_min in_max out_min out_max : ℚ) : ℚ :=
  (x - in_min) * (out_max - out_min) / (in_max - in_min) + out_min

/-- The chunk list produced by Rust's `slice::chunks(size)`: contiguous
chunks of `size` elements, the last one possibly shorter.  Implemented with
a structural fuel argument (`l.length` suffices whenever `0 < size`; Rust
panics on `size = 0`, and all theorems below assume `1 ≤ size`). -/
def chunksGo (size : ℕ) : ℕ → List Pt → List (List Pt)
  | _, [] => []
  | 0, a :: l => [a :: l]
  | fuel + 1, a :: l =>
    if (a :: l).length ≤ size then [a :: l]
    else (a :: l).take size :: chunksGo size fuel ((a :: l).drop size)

/-- `points.chunks(batch_size)` from `integrate`. -/
def chunks (size : ℕ) (l : List Pt) : List (List Pt) := chunksGo size l.length l

/-- The in-chunk trapezoid sum of `integrate`:
`for i in 0..(batch.len() - 1) { sum += trapezoidal_approx(&batch[i], &batch[i+1]) }`.
This is also the single composite trapezoidal rule over a full point list. -/
def seqSum : List Pt → Qc
  | a :: b :: rest => trapezoidal_approx a b + seqSum (b :: rest)
  | _ => 0

/-- The sequential cross-chunk boundary panels of `integrate`:
`for i in 0..batches.len()-1 { rest += trapezoidal_approx(&batches[i][last], &batches[i+1][0]) }`. -/
def boundarySum : List (List Pt) → Qc
  | b1 :: b2 :: rest => trapezoidal_approx (b1.getLastD default) b2.headI + boundarySum (b2 :: rest)
  | _ => 0

/-- `integrate` (`src/src/main.rs` lines 94-119): parallel per-chunk
trapezoid sums plus sequentially added cross-chunk boundary panels.  The
`rayon` parallel reduction is embedded as the canonical left-to-right list
sum, which is its unique value in exact arithmetic. -/
def integrate (points : List Pt) (batch_size : ℕ) : Qc :=
  if points.length < 2 then 0
  else
    let batches := chunks batch_size points
    (batches.map seqSum).sum + boundarySum batches

/-- `evaluate_function_between` (`src/src/main.rs` lines 121-131): `n`
uniform samples of `f` with endpoints `a` and `b` included
(`index_to_range(i, 0, n-1, a, b)`); empty when `a = b`. -/
def evaluate_function_between (f : ℚ → Qc) (a b : ℚ) (n : ℕ) : List Pt :=
  if a = b then []
  else (List.range n).map fun i =>
    let x := index_to_range i 0 ((n : ℚ) - 1) a b
    ⟨x, f x⟩

/-- `sqrt(f64::EPSILON)`: the machine epsilon of `f64` is `2⁻⁵²`, whose
square root is exactly `2⁻²⁶` (both are exactly representable). -/
def hEps : ℚ := 1 / 2 ^ 26

/-- `f64::abs`, written with an explicit case split so that concrete
evaluations reduce; equal to Mathlib's `|·|` on ℚ (`qabs_eq_abs` below). -/
def qabs (q : ℚ) : ℚ := if q < 0 then -q else q

/-- `derivative` (`src/src/newtons_method.rs` lines 110-129), instantiated at
`R = f64`: five-point-stencil derivative estimate with
`dx = f64::epsilon().sqrt()`, `m1 = (f(x+dx) - f(x-dx))/2.0`,
`m2 = (f(x+2dx) - f(x-2dx))/4.0`, `m3 = (f(x+3dx) - f(x-3dx))/6.0`,
result `(15*m1 - 6*m2 + m3) / (10*dx)`. -/
def deriv5 (f : ℚ → ℚ) (x : ℚ) : ℚ :=
  let dx1 := hEps
  let dx2 := dx1 * 2
  let dx3 := dx1 * 3
  let m1 := (f (x + dx1) - f (x - dx1)) / 2
  let m2 := (f (x + dx2) - f (x - dx2)) / 4
  let m3 := (f (x + dx3) - f (x - dx3)) / 6
  (m1 * 15 - m2 * 6 + m3) / (dx1 * 10)

/-- Result of one run of the unbounded `newtons_method`
(`src/src/newtons_method.rs` lines 131-149) under a fuel bound:
`panic` embeds `panic!("Devision by zero")`, `value g` a normal return, and
`diverge` fuel exhaustion (the Rust loop would still be running). -/
inductive NewtonResult where
  | panic : NewtonResult
  | value : ℚ → NewtonResult
  | diverge : NewtonResult
deriving DecidableEq

/-- `newtons_method` (`src/src/newtons_method.rs` lines 131-149) with fuel:
each iteration computes the stencil derivative, panics if it is exactly
zero, returns the current guess when `|step| < precision`, and otherwise
updates `guess -= step`. -/
def newtonsMethodR (f : ℚ → ℚ) (guess precision : ℚ) : ℕ → NewtonResult
  | 0 => .diverge
  | fuel + 1 =>
    let deriv := deriv5 f guess
    if deriv = 0 then .panic
    else
      let step := f guess / deriv
      if qabs step < precision then .value guess
      else newtonsMethodR f (guess - step) precision fuel

/-- `newtons_method_max_iters` (`src/src/newtons_method.rs` lines 167-189):
the same iteration, returning `none` on a zero derivative or when
`max_iters` is exhausted, `some guess` on convergence. -/
def newtonsMethodMaxIters (f : ℚ → ℚ) (guess precision : ℚ) : ℕ → Option ℚ
  | 0 => none
  | maxIters + 1 =>
    let derivative := deriv5 f guess
    if derivative = 0 then none
    else
      let step := f guess / derivative
      if qabs step < precision then some guess
      else newtonsMethodMaxIters f (guess - step) precision maxIters

/-- Collapse of a fueled unbounded-Newton outcome into the `Option` shape of
the bounded variant: both `panic` and `diverge` become "no result". -/
def NewtonResult.toOption : NewtonResult → Option ℚ
  | .panic => none
  | .value g => some g
  | .diverge => none

/-- The set of start guesses from which the unbounded `newtons_method`
iteration reaches an iterate with an exactly-zero stencil derivative (and
hence panics), before any iterate satisfies the convergence test. -/
inductive PanicsFrom (f : ℚ → ℚ) (precision : ℚ) : ℚ → Prop where
  | here (g : ℚ) : deriv5 f g = 0 → PanicsFrom f precision g
  | step (g : ℚ) : deriv5 f g ≠ 0 → ¬ qabs (f g / deriv5 f g) < precision →
      PanicsFrom f precision (g - f g / deriv5 f g) → PanicsFrom f precision g

/-- The stateful deflating zero finder `NewtonsMethodFindNewZero`
(`src/src/newtons_method.rs` lines 247-307): the searched function, the
precision, the iteration cap, and the accumulated `(multiplicity, zero)`
list. -/
structure NewtonsMethodFindNewZero where
  f : ℚ → ℚ
  precision : ℚ
  max_iters : ℕ
  previous_zeros : List (ℤ × ℚ)

/-- `NewtonsMethodFindNewZero::new` (lines 259-266). -/
def NewtonsMethodFindNewZero.new (f : ℚ → ℚ) (precision : ℚ) (max_iters : ℕ) :
    NewtonsMethodFindNewZero :=
  ⟨f, precision, max_iters, []⟩

/-- `NewtonsMethodFindNewZero::modified_func` (lines 268-279): divide the
original function by `fold(1.0, acc * (x - z).powi(n))` over the recorded
zeros, adding `precision` to the divisor exactly when the product is zero. -/
def NewtonsMethodFindNewZero.modified_func (s : NewtonsMethodFindNewZero) (x : ℚ) : ℚ :=
  let divisor := s.previous_zeros.foldl (fun acc nz => acc * (x - nz.2) ^ nz.1) 1
  let divisor := if divisor = 0 then divisor + s.precision else divisor
  s.f x / divisor

/-- `NewtonsMethodFindNewZero::next_zero` (lines 281-299): run the bounded
Newton search against the modified function; on success record the zero with
multiplicity 2 when the stencil derivative of the modified function at the
zero is below `precision` in absolute value, multiplicity 1 otherwise; on
failure record nothing.  Returns the search result paired with the updated
state. -/
def NewtonsMethodFindNewZero.next_zero (s : NewtonsMethodFindNewZero) (guess : ℚ) :
    Option ℚ × NewtonsMethodFindNewZero :=
  let zero := newtonsMethodMaxIters (fun x => s.modified_func x) guess s.precision s.max_iters
  match zero with
  | some z =>
    if qabs (deriv5 (fun x => s.modified_func x) z) < s.precision then
      (zero, { s with previous_zeros := s.previous_zeros ++ [(2, z)] })
    else
      (zero, { s with previous_zeros := s.previous_zeros ++ [(1, z)] })
  | none => (zero, s)

/-- `NewtonsMethodFindNewZero::get_previous_zeros` (lines 301-307). -/
def NewtonsMethodFindNewZero.get_previous_zeros (s : NewtonsMethodFindNewZero) : List ℚ :=
  s.previous_zeros.map fun nz => nz.2

/-- The deflation divisor built by the free function
`newtons_method_find_new_zero` (`src/src/newtons_method.rs` line 337):
`known_zeros.iter().fold(0.0, |acc, &z| acc * (x - z))` — note the `0.0`
accumulator seed. -/
def divisorFNZ (known_zeros : List ℚ) (x : ℚ) : ℚ :=
  known_zeros.foldl (fun acc z => acc * (x - z)) 0

/-- IEEE-754 `f64` division restricted to the finite outcomes: dividing by
exactly `0.0` yields `±inf` or `NaN`, i.e. a non-finite value, embedded as
`none`; otherwise the exact quotient. -/
def f64div (a b : ℚ) : Option ℚ :=
  if b = 0 then none else some (a / b)

/-- The modified function `f_modified` handed to the bounded Newton search by
the free `newtons_method_find_new_zero` (lines 327-339), under the `f64`
division model: `f(x)` divided by the fold-from-`0.0` product. -/
def fModifiedFNZ (f : ℚ → ℚ) (known_zeros : List ℚ) (x : ℚ) : Option ℚ :=
  f64div (f x) (divisorFNZ known_zeros x)

/-- `newtons_method_find_new_zero` (lines 327-339) with ℚ's total division
standing in for the `f64` division (see `fModifiedFNZ` for the `f64`
behaviour of that division, which is non-finite everywhere). -/
def newtons_method_find_new_zero (f : ℚ → ℚ) (guess precision : ℚ) (max_iters : ℕ)
    (known_zeros : List ℚ) : Option ℚ :=
  newtonsMethodMaxIters (fun x => f x / divisorFNZ known_zeros x) guess precision max_iters

/-- `check_sign` (`src/src/newtons_method.rs` lines 195-200).  The `f64`
comparisons `initial <= -0.0` and `new >= 0.0` coincide with `≤ 0` / `0 ≤`
on ℚ (IEEE `-0.0` equals `0.0` numerically). -/
def check_sign (initial new : ℚ) : Bool :=
  if initial = new then false
  else decide ((initial ≤ 0 ∧ 0 ≤ new) ∨ (0 ≤ initial ∧ new ≤ 0))

/-- `bisection_search_sign_change` (lines 202-211) with fuel: advance
`result` by `step` until the sign of `f` flips relative to
`f(initial_guess)`, then return `(result - step, result)`. -/
def bisection_search_sign_change (f : ℚ → ℚ) (initial_guess step : ℚ) :
    ℕ → ℚ → Option (ℚ × ℚ)
  | 0, _ => none
  | fuel + 1, result =>
    if check_sign (f initial_guess) (f result) then some (result - step, result)
    else bisection_search_sign_change f initial_guess step fuel (result + step)

/-- `regula_falsi_c` (lines 213-218): the secant-through-zero point. -/
def regula_falsi_c (f : ℚ → ℚ) (a b : ℚ) : ℚ :=
  (a * f b - b * f a) / (f b - f a)

/-- The loop of `regula_falsi_method` (lines 230-235) with fuel: while
`|f(c)| > precision`, update `b`, then `a` (using the new `b`), then `c`. -/
def regulaFalsiLoop (f : ℚ → ℚ) (precision : ℚ) : ℕ → ℚ → ℚ → Option ℚ
  | 0, _, _ => none
  | fuel + 1, a, b =>
    let c := regula_falsi_c f a b
    if qabs (f c) ≤ precision then some c
    else
      let b' := regula_falsi_c f a b
      let a' := regula_falsi_c f a b'
      regulaFalsiLoop f precision fuel a' b'

/-- `regula_falsi_method` (lines 220-237): swap the endpoints into order,
then iterate the false-position update until `|f(c)| ≤ precision`. -/
def regula_falsi_method (f : ℚ → ℚ) (a b precision : ℚ) (fuel : ℕ) : Option ℚ :=
  if a > b then regulaFalsiLoop f precision fuel b a
  else regulaFalsiLoop f precision fuel a b

/-- `regula_falsi_bisection` (lines 239-245): bracket a sign change from the
guess, then refine by regula falsi. -/
def regula_falsi_bisection (f : ℚ → ℚ) (guess bisection_step precision : ℚ)
    (fuel : ℕ) : Option ℚ :=
  match bisection_search_sign_change f guess bisection_step fuel guess with
  | some (a, b) => regula_falsi_method f a b precision fuel
  | none => none

/-- Rational square root used to embed `f64::sqrt` at the places the
turning-point code applies it (`(2.0 * mass).sqrt()`,
`ACCURACY.sqrt()`): exact whenever numerator and denominator are perfect
squares — in particular at every input the theorems below evaluate it on
(`2 * mass` a perfect square of a rational), where `f64::sqrt` is also
exact. -/
def sqrtQ (q : ℚ) : ℚ :=
  (Nat.sqrt q.num.toNat : ℚ) / (Nat.sqrt q.den : ℚ)

/-- `num::signum` on `f64`: `1.0` for positives and `+0.0`, `-1.0` for
negatives (ℚ has a single zero, mapped like IEEE `+0.0`). -/
def signumF64 (q : ℚ) : ℚ :=
  if 0 ≤ q then 1 else -1

/-- The `Phase` value as consumed by the turning-point detector
(`src/src/turning_points.rs` uses `phase.mass`, `phase.potential`,
`phase.energy`).  The full struct lives in `wkb_wave_func.rs`, which is not
among the provided sources; these three fields are the ones the embedded
code reads. -/
structure Phase where
  energy : ℚ
  mass : ℚ
  potential : ℚ → ℚ

/-- `H_BAR` (`src/src/main.rs` line 19): `const H_BAR: f64 = 1.0`. -/
def H_BAR : ℚ := 1

/-- `ACCURACY` (`src/src/turning_points.rs` line 7): `1e-9`, idealised as
the exact rational. -/
def ACCURACY : ℚ := 1 / 10 ^ 9

/-- `MAX_TURNING_POINTS` (`src/src/turning_points.rs` line 6). -/
def MAX_TURNING_POINTS : ℕ := 256

/-- `validity_func` (`src/src/turning_points.rs` lines 24-29):
`1.0 / (2.0 * mass).sqrt() * derivative(potential, x).abs()
 - (potential(x) - energy).pow(2)`. -/
def validity_func (phase : Phase) (x : ℚ) : ℚ :=
  1 / sqrtQ (2 * phase.mass) * qabs (deriv5 phase.potential x)
    - (phase.potential x - phase.energy) ^ 2

/-- The local validity function of `AiryWaveFunction::calc_ts`
(`src/src/airy_wave_func.rs` lines 49-62), which spells the `H_BAR` factor
explicitly: `H_BAR / (2.0 * mass).sqrt() * derivative(potential, x).abs()
 - (potential(x) - energy).pow(2)`. -/
def airyValidityFunc (phase : Phase) (x : ℚ) : ℚ :=
  H_BAR / sqrtQ (2 * phase.mass) * qabs (deriv5 phase.potential x)
    - (phase.potential x - phase.energy) ^ 2

/-- `TGroup` (`src/src/turning_points.rs` lines 9-12): the ordered list of
`((t1, t2), turning_point)` entries. -/
structure TGroup where
  ts : List ((ℚ × ℚ) × ℚ)
deriving DecidableEq

/-- The edge-fixing loop run by `group_ts` when the first sorted zero has a
negative validity-derivative sign (`src/src/turning_points.rs` lines 45-59):
repeatedly bracket-and-refine a zero of the validity function to the left
(step `-ACCURACY.sqrt()`), retreating the seed each round, until the found
zero has a nonnegative derivative sign. -/
def frontLoop (valid : ℚ → ℚ) (rfFuel : ℕ) : ℕ → ℚ → Option ℚ
  | 0, _ => none
  | fuel + 1, guess =>
    match regula_falsi_bisection valid guess (-(sqrtQ ACCURACY)) ACCURACY rfFuel with
    | some t =>
      if signumF64 (deriv5 valid t) < 0 then frontLoop valid rfFuel fuel (guess - sqrtQ ACCURACY)
      else some t
    | none => none

/-- The symmetric edge-fixing loop for the last sorted zero
(`src/src/turning_points.rs` lines 61-75): search to the right with step
`+ACCURACY.sqrt()` until the found zero has a nonpositive derivative sign. -/
def backLoop (valid : ℚ → ℚ) (rfFuel : ℕ) : ℕ → ℚ → Option ℚ
  | 0, _ => none
  | fuel + 1, guess =>
    match regula_falsi_bisection valid guess (sqrtQ ACCURACY) ACCURACY rfFuel with
    | some t =>
      if 0 < signumF64 (deriv5 valid t) then backLoop valid rfFuel fuel (guess + sqrtQ ACCURACY)
      else some t
    | none => none

/-- The sorted, sign-tagged and edge-augmented boundary-zero list built by
`group_ts` before the evenness assertion (`src/src/turning_points.rs` lines
32-75): sort the zeros ascending, tag each with
`signum(derivative(validity, ·))`, then possibly insert a synthetic zero at
the front (when the first sign is negative) and push one at the back (when
the last sign is positive). -/
def augmentedDerivs (zeros : List ℚ) (phase : Phase) (fuel : ℕ) :
    Option (List (ℚ × ℚ)) :=
  let valid := fun x => validity_func phase x
  let sorted := zeros.insertionSort (· ≤ ·)
  let derivs := sorted.map fun z => (signumF64 (deriv5 valid z), z)
  let withFront :=
    match derivs.head? with
    | some dz =>
      if dz.1 < 0 then
        (frontLoop valid fuel fuel (dz.2 - sqrtQ ACCURACY)).map
          fun t => (signumF64 (deriv5 valid t), t) :: derivs
      else some derivs
    | none => some derivs
  withFront.bind fun ds =>
    match ds.getLast? with
    | some dz =>
      if 0 < dz.1 then
        (backLoop valid fuel fuel (dz.2 + sqrtQ ACCURACY)).map
          fun t => ds ++ [(signumF64 (deriv5 valid t), t)]
      else some ds
    | none => some ds

/-- The pairing loop of `group_ts` (`src/src/turning_points.rs` lines
79-87): take the tagged boundary zeros two at a time, assert the left sign
positive and the right sign negative, and locate each pair's turning point
by unbounded Newton on `energy - potential` seeded at the midpoint with
precision `1e-7`.  Assertion failure, a Newton panic, and fuel exhaustion
all embed to `none`. -/
def pairUp (phase : Phase) (fuel : ℕ) : List (ℚ × ℚ) → Option (List ((ℚ × ℚ) × ℚ))
  | [] => some []
  | (d1, t1) :: (d2, t2) :: rest =>
    if 0 < d1 then
      if d2 < 0 then
        match newtonsMethodR (fun x => phase.energy - phase.potential x)
            ((t1 + t2) / 2) (1 / 10 ^ 7) fuel with
        | .value turning_point =>
          (pairUp phase fuel rest).map fun g => ((t1, t2), turning_point) :: g
        | _ => none
      else none
    else none
  | _ => none

/-- `group_ts` (`src/src/turning_points.rs` lines 31-91): build the
augmented sign-tagged zero list, assert its length even
(`assert_eq!(derivatives.len() % 2, 0)`), and pair it up. -/
def group_ts (zeros : List ℚ) (phase : Phase) (fuel : ℕ) : Option TGroup :=
  (augmentedDerivs zeros phase fuel).bind fun ds =>
    if ds.length % 2 = 0 then (pairUp phase fuel ds).map TGroup.mk
    else none

/-- `make_guess` (`src/src/newtons_method.rs` lines 309-325): sample
`f(x) / (1 - exp(-f'(x)²))` at `n` points (`index_to_range(i, 0, n, a, b)`),
take absolute values, sort by value (a stable ascending sort, as Rust's
`sort_by`), and return the position of the minimum.  `f64::exp` is
transcendental and is passed in as the parameter `expf`. -/
def make_guess (expf : ℚ → ℚ) (f : ℚ → ℚ) (start stop : ℚ) (n : ℕ) : Option ℚ :=
  let points := (List.range n).map fun i =>
    let x := index_to_range i 0 n start stop
    let der := deriv5 f x
    (x, f x / (-(expf (-(der * der))) + 1))
  let points := points.map fun p => (p.1, qabs p.2)
  let sorted := points.insertionSort fun p q => p.2 ≤ q.2
  sorted.head?.map fun p => p.1

/-- `find_zeros` (`src/src/turning_points.rs` lines 100-123): run the
deflating finder seeded by `make_guess` for `MAX_TURNING_POINTS` rounds with
precision `ACCURACY` and cap `1e4`, then keep the recorded zeros strictly
inside the (ordered) view. -/
def find_zeros (expf : ℚ → ℚ) (phase : Phase) (view : ℚ × ℚ) : List ℚ :=
  let s0 := NewtonsMethodFindNewZero.new (fun x => validity_func phase x) ACCURACY (10 ^ 4)
  let s := (List.range MAX_TURNING_POINTS).foldl
    (fun s _ =>
      match make_guess expf (fun x => s.modified_func x) view.1 view.2 1000 with
      | some g => (s.next_zero g).2
      | none => s) s0
  let view := if view.1 < view.2 then view else (view.2, view.1)
  s.get_previous_zeros.filter fun x => view.1 < x ∧ x < view.2

/-- `calc_ts` (`src/src/turning_points.rs` lines 93-98): find the validity
zeros in view, then group them. -/
def calc_ts (expf : ℚ → ℚ) (phase : Phase) (view : ℚ × ℚ) (fuel : ℕ) : Option TGroup :=
  group_ts (find_zeros expf phase view) phase fuel

/-- `is_in_range` (`src/src/wave_function_builder.rs` lines 23-25):
`range.0 <= x && range.1 > x`. -/
def is_in_range (range : ℚ × ℚ) (x : ℚ) : Prop :=
  range.1 ≤ x ∧ range.2 > x

instance (range : ℚ × ℚ) (x : ℚ) : Decidable (is_in_range range x) :=
  inferInstanceAs (Decidable (_ ∧ _))

/-- A wave-function part as `WaveFunction::calc_psi` consumes it: a validity
range (`WaveFunctionPart::range`) together with an evaluation function
(`Func::eval`). -/
abbrev WFPart : Type := (ℚ × ℚ) × (ℚ → Qc)

/-- `WaveFunction::calc_psi` (`src/src/wave_function_builder.rs` lines
413-427): linear scan through the ordered parts, returning the first part
whose range contains `x`; the fall-through `panic!` is embedded as `none`. -/
def calc_psi (parts : List WFPart) (x : ℚ) : Option Qc :=
  match parts with
  | [] => none
  | p :: rest => if is_in_range p.1 x then some (p.2 x) else calc_psi rest x

/-- The assembled `WaveFunction` restricted to the fields its evaluation and
renormalization read: the ordered part list and the complex scaling. -/
structure WF where
  parts : List WFPart
  scaling : Qc

/-- `ScalingType` (`src/src/wave_function_builder.rs` lines 6-10). -/
inductive ScalingType where
  | Mul : Qc → ScalingType
  | Renormalize : Qc → ScalingType
  | NoScale : ScalingType

/-- `Func::eval` for `WaveFunction` (`src/src/wave_function_builder.rs`
lines 478-482): `scaling * calc_psi(x)`.  Out-of-range evaluation panics
(see `calc_psi`); it is totalised here with `0` for use under the
integrator, and the renormalization theorems below evaluate only at sample
points lying inside a part's range. -/
def WF.eval (w : WF) (x : ℚ) : Qc :=
  cMul w.scaling ((calc_psi w.parts x).getD 0)

/-- `f64::EPSILON = 2⁻⁵²`, exactly. -/
def eps52 : ℚ := 1 / 2 ^ 52

/-- The area `∫ |ψ(x)|² dx` computed inside `renormalize_factor`
(`src/src/wave_function_builder.rs` lines 578-593): sample the wave function
on `INTEG_STEPS` points over `(approx_inf.0 * (1 - ε), approx_inf.1 * (1 - ε))`,
map each sample to its `norm_sqr`, and integrate with the trapezoidal
integrator.  The real-valued instance of the generic integrator (the crate's
`integrals.rs` is not among the provided sources) is represented inside the
complex one with zero imaginary part, which is exact.  The step count and
chunk size are crate-root constants (`INTEG_STEPS`, `TRAPEZE_PER_THREAD`,
10000 and 1000 in `src/src/main.rs`) and are taken as parameters. -/
def areaOf (psi : ℚ → Qc) (approx_inf : ℚ × ℚ) (integSteps trapeze : ℕ) : ℚ :=
  (integrate
    ((evaluate_function_between psi (approx_inf.1 * (1 - eps52))
        (approx_inf.2 * (1 - eps52)) integSteps).map
      fun p => ⟨p.x, (normSq p.y, 0)⟩)
    trapeze).1

/-- `renormalize_factor` (`src/src/wave_function_builder.rs` lines 578-603):
`1.0 / area`, with an exactly-zero area replaced by `1.0` (renormalization
skipped). -/
def renormalize_factor (psi : ℚ → Qc) (approx_inf : ℚ × ℚ)
    (integSteps trapeze : ℕ) : ℚ :=
  let area := areaOf psi approx_inf integSteps trapeze
  let area := if area = 0 then 1 else area
  1 / area

/-- The scaling assembly of `WaveFunction::new` (`src/src/wave_function_builder.rs`
lines 374-410), for already-constructed parts: `Mul s` stores `s`, no scaling
stores `1`, and `Renormalize s` integrates the `s`-scaled wave function and
stores `s * renormalize_factor`. -/
def mkWaveFunction (parts : List WFPart) (approx_inf : ℚ × ℚ)
    (integSteps trapeze : ℕ) : ScalingType → WF
  | .Mul s => ⟨parts, s⟩
  | .NoScale => ⟨parts, (1, 0)⟩
  | .Renormalize s =>
    let unscaled : WF := ⟨parts, s⟩
    let factor := renormalize_factor unscaled.eval approx_inf integSteps trapeze
    ⟨parts, cMul s (factor, 0)⟩

/-- The real quadratic field ℚ(√3), used to embed the exact values of the
rotation constants in the derived Airy `Bi`: `a + b·√3`. -/
structure Q3 where
  a : ℚ
  b : ℚ
deriving DecidableEq

/-- Addition in ℚ(√3). -/
def q3add (x y : Q3) : Q3 := ⟨x.a + y.a, x.b + y.b⟩

/-- Multiplication in ℚ(√3): `(a + b√3)(c + d√3) = (ac + 3bd) + (ad + bc)√3`. -/
def q3mul (x y : Q3) : Q3 := ⟨x.a * y.a + 3 * (x.b * y.b), x.a * y.b + x.b * y.a⟩

/-- Negation in ℚ(√3). -/
def q3neg (x : Q3) : Q3 := ⟨-x.a, -x.b⟩

/-- Embedding of ℚ into ℚ(√3). -/
def q3ofQ (q : ℚ) : Q3 := ⟨q, 0⟩

/-- Complex numbers over ℚ(√3): the exact subfield of ℂ in which all Airy
rotation constants (`±1/2`, `±√3/2`, `i`) live. -/
structure C3Q where
  re : Q3
  im : Q3
deriving DecidableEq

/-- Complex addition over ℚ(√3). -/
def c3add (z w : C3Q) : C3Q := ⟨q3add z.re w.re, q3add z.im w.im⟩

/-- Complex multiplication over ℚ(√3). -/
def c3mul (z w : C3Q) : C3Q :=
  ⟨q3add (q3mul z.re w.re) (q3neg (q3mul z.im w.im)),
   q3add (q3mul z.re w.im) (q3mul z.im w.re)⟩

/-- Complex negation over ℚ(√3). -/
def c3neg (z : C3Q) : C3Q := ⟨q3neg z.re, q3neg z.im⟩

/-- Embedding of ℚ into the complex numbers over ℚ(√3). -/
def c3ofQ (q : ℚ) : C3Q := ⟨q3ofQ q, q3ofQ 0⟩

/-- The complex unit `1`. -/
def c3one : C3Q := c3ofQ 1

/-- The imaginary unit `i = complex(0.0, 1.0)`. -/
def c3I : C3Q := ⟨q3ofQ 0, q3ofQ 1⟩

/-- Complex natural powers over ℚ(√3). -/
def c3pow (z : C3Q) : ℕ → C3Q
  | 0 => c3one
  | n + 1 => c3mul z (c3pow z n)

/-- The argument rotation constant actually used by `Bi`
(`src/src/airy_wave_func.rs` line 15 and `src/Schroedinger/src/airy_wave_func.rs`
line 13): `complex(-0.5, 3.0_f64.sqrt() / 2.0) = -1/2 + (√3/2)·i = e^{i·2π/3}`. -/
def rotCode : C3Q := ⟨⟨-(1 / 2), 0⟩, ⟨0, 1 / 2⟩⟩

/-- The result rotation constant used by `Bi`:
`complex(3_f64.sqrt() / 2.0, 0.5) = √3/2 + (1/2)·i = e^{iπ/6}`. -/
def rotRes : C3Q := ⟨⟨0, 1 / 2⟩, ⟨1 / 2, 0⟩⟩

/-- The rotation constant named by the specification for the argument:
`e^{iπ/3} = 1/2 + (√3/2)·i`. -/
def rotClaim : C3Q := ⟨⟨1 / 2, 0⟩, ⟨0, 1 / 2⟩⟩

/-- `Bi` (`src/src/airy_wave_func.rs` lines 14-16, identical in
`src/Schroedinger/src/airy_wave_func.rs` lines 12-14), parametric in the
externally provided `Ai`:
`-complex(0.0, 1.0) * Ai(x) + 2.0 * Ai(x * complex(-0.5, √3/2)) * complex(√3/2, 0.5)`. -/
def Bi (Ai : C3Q → C3Q) (x : C3Q) : C3Q :=
  c3add (c3neg (c3mul c3I (Ai x)))
    (c3mul (c3mul (c3ofQ 2) (Ai (c3mul x rotCode))) rotRes)

/-- The right-hand side of the identity as the specification states it, with
`e^{iπ/3}` multiplying the argument:
`-i·Ai(z) + 2·Ai(z·e^{iπ/3})·e^{iπ/6}`. -/
def BiClaimRhs (Ai : C3Q → C3Q) (x : C3Q) : C3Q :=
  c3add (c3neg (c3mul c3I (Ai x)))
    (c3mul (c3mul (c3ofQ 2) (Ai (c3mul x rotClaim))) rotRes)

/-- The five-point combination exactly as the specification words it: the
combination `(15·m1 - 6·m2 + m3) / (10h)` where `m_k` is the standard
central-difference quotient of `f` at step `k·h`, i.e.
`m_k = (f(x + k·h) - f(x - k·h)) / (2·(k·h))`, with `h = sqrt(machine
epsilon)`. -/
def specStencil (f : ℚ → ℚ) (x : ℚ) : ℚ :=
  let h := hEps
  let m1 := (f (x + h) - f (x - h)) / (2 * (1 * h))
  let m2 := (f (x + 2 * h) - f (x - 2 * h)) / (2 * (2 * h))
  let m3 := (f (x + 3 * h) - f (x - 3 * h)) / (2 * (3 * h))
  (15 * m1 - 6 * m2 + m3) / (10 * h)

theorem qabs_eq_abs (q : ℚ) : qabs q = |q| := by
  by_cases h : q < 0
  · rw [qabs, if_pos h, abs_of_neg h]
  · rw [qabs, if_neg h, abs_of_nonneg (not_lt.mp h)]

/-- C4 (amended): `derivative(f, x)` returns
`(15·m1 - 6·m2 + m3) / (10h)` with `h = sqrt(machine epsilon) = 2⁻²⁶` and
`m_k = (f(x + k·h) - f(x - k·h)) / (2·k)` — the averaged central difference
at step `k·h` divided by `k` (equivalently `h` times the central-difference
quotient), not the central-difference quotient itself.  Moreover the
resulting estimate is exact on quadratics, so it is a genuine derivative
estimate (which the specification's literal formula is not). -/
theorem c4_derivative_formula :
    (∀ (f : ℚ → ℚ) (x : ℚ),
      deriv5 f x =
        (15 * ((f (x + hEps) - f (x - hEps)) / (2 * 1))
          - 6 * ((f (x + 2 * hEps) - f (x - 2 * hEps)) / (2 * 2))
          + (f (x + 3 * hEps) - f (x - 3 * hEps)) / (2 * 3)) / (10 * hEps)) ∧
    (∀ a b c x : ℚ, deriv5 (fun t => a * t ^ 2 + b * t + c) x = 2 * a * x + b) := by
  constructor
  · intro f x
    simp only [deriv5]
    ring_nf
  · intro a b c x
    simp only [deriv5, hEps]
    have h26 : ((2 : ℚ) ^ 26)⁻¹ ≠ 0 := by norm_num
    field_simp
    ring

/-- C4 (counterexample): at `f = id`, `x = 0`, the code's `derivative`
returns the true derivative `1`, while the specification's literal formula —
with `m_k` the central-difference quotient at step `k·h` — returns
`2²⁶ = 1/h`; the two differ. -/
theorem c4_counterexample :
    deriv5 (fun t => t) 0 = 1 ∧ specStencil (fun t => t) 0 = 2 ^ 26 ∧
      deriv5 (fun t => t) 0 ≠ specStencil (fun t => t) 0 := by
  norm_num [deriv5, specStencil, hEps]

/-- C4 (witness): the amended formula's exactness conjunct applied at the
concrete quadratic `t ↦ 1·t² + 0·t + 0` and `x = 3`. -/
theorem c4_witness : deriv5 (fun t => 1 * t ^ 2 + 0 * t + 0) 3 = 2 * 1 * 3 + 0 :=
  c4_derivative_formula.2 1 0 0 3

/-- C8: for every `Phase` and every `x`, the validity function whose zeros
turning-point detection searches for (`validity_func` in
`turning_points.rs`, used by `find_zeros` and `group_ts`) equals
`ħ/√(2m) · |dU/dx| - (U(x) - E)²` with `ħ` the `H_BAR` constant (which is
`1.0`), `m` the phase's mass, `U` its potential and `E` its energy; and the
explicit-`ħ` validity function written inside `AiryWaveFunction::calc_ts`
agrees with it. -/
theorem c8_validity_formula (phase : Phase) (x : ℚ) :
    validity_func phase x =
      H_BAR / sqrtQ (2 * phase.mass) * |deriv5 phase.potential x|
        - (phase.potential x - phase.energy) ^ 2 ∧
    airyValidityFunc phase x = validity_func phase x := by
  rw [validity_func, airyValidityFunc, qabs_eq_abs, H_BAR]
  exact ⟨rfl, rfl⟩

/-- C8 (witness): the formula evaluated at a concrete phase
(`E = 1`, `m = 1/2`, `U = id`) and `x = 3`. -/
theorem c8_witness :
    validity_func ⟨1, 1 / 2, fun t => t⟩ 3 =
      H_BAR / sqrtQ (2 * (1 / 2)) * |deriv5 (fun t => t) 3| - ((3 : ℚ) - 1) ^ 2 :=
  (c8_validity_formula ⟨1, 1 / 2, fun t => t⟩ 3).1

theorem foldl_mul_from_zero (x : ℚ) (l : List ℚ) :
    l.foldl (fun acc z => acc * (x - z)) 0 = 0 := by
  induction l with
  | nil => rfl
  | cons z rest ih =>
    simpa using ih

/-- C9: the free `newtons_method_find_new_zero` seeds its deflation fold
with `0.0`, so the divisor is `0` for every input and every known-zeros list
(including the empty one), and under `f64` semantics the function handed to
the bounded Newton search, `f(x)/0.0`, is non-finite everywhere — the
divide-by-product-of-roots deflation of the stateful finder never takes
place in this function. -/
theorem c9_free_finder_divisor_zero (known_zeros : List ℚ) (x : ℚ) :
    divisorFNZ known_zeros x = 0 ∧
      ∀ f : ℚ → ℚ, fModifiedFNZ f known_zeros x = none := by
  have h0 : divisorFNZ known_zeros x = 0 := foldl_mul_from_zero x known_zeros
  exact ⟨h0, fun f => by rw [fModifiedFNZ, h0, f64div, if_pos rfl]⟩

/-- C9 (witness): the divisor is zero even on a nonempty concrete zero list. -/
theorem c9_witness : divisorFNZ [1, 2] 5 = 0 :=
  (c9_free_finder_divisor_zero [1, 2] 5).1

/-- C2 (amended): for every complex argument, the derived
`Bi(z) = -i·Ai(z) + 2·Ai(z·c)·e^{iπ/6}` where the argument rotation constant
`c` is `e^{i·2π/3} = -1/2 + (√3/2)·i` — a primitive cube root of unity
(`c³ = 1`, `c ≠ 1`) — not `e^{iπ/3} = 1/2 + (√3/2)·i` (whose cube is `-1`);
the result constant is `e^{iπ/6} = √3/2 + (1/2)·i` (whose sixth power is
`-1`), as claimed. -/
theorem c2_bi_identity :
    (∀ (Ai : C3Q → C3Q) (z : C3Q),
      Bi Ai z =
        c3add (c3neg (c3mul c3I (Ai z)))
          (c3mul (c3mul (c3ofQ 2) (Ai (c3mul z rotCode))) rotRes)) ∧
    c3pow rotCode 3 = c3one ∧ rotCode ≠ c3one ∧
    c3pow rotClaim 3 = c3neg c3one ∧ c3pow rotRes 6 = c3neg c3one := by
  refine ⟨fun Ai z => rfl, ?_, ?_, ?_, ?_⟩ <;>
    norm_num [c3pow, c3mul, c3one, c3ofQ, c3neg, q3mul, q3add, q3neg, q3ofQ,
      rotCode, rotClaim, rotRes, C3Q.mk.injEq, Q3.mk.injEq]

/-- C2 (counterexample): with `Ai` instantiated to the identity function and
`z = 1`, the code's `Bi` (argument rotated by `e^{i·2π/3}`) and the
specification's formula (argument rotated by `e^{iπ/3}`) give different
values (`-√3` versus `i`). -/
theorem c2_counterexample :
    Bi (fun w => w) c3one ≠ BiClaimRhs (fun w => w) c3one := by
  norm_num [Bi, BiClaimRhs, c3add, c3mul, c3neg, c3I, c3one, c3ofQ,
    q3mul, q3add, q3neg, q3ofQ, rotCode, rotClaim, rotRes, C3Q.mk.injEq, Q3.mk.injEq]

/-- C2 (witness): the amended identity applied at the identity `Ai` and
`z = 1`. -/
theorem c2_witness :
    Bi (fun w => w) c3one =
      c3add (c3neg (c3mul c3I c3one))
        (c3mul (c3mul (c3ofQ 2) (c3mul c3one rotCode)) rotRes) :=
  c2_bi_identity.1 (fun w => w) c3one

/-- C10: `is_in_range` is half-open — it holds iff `lo ≤ x ∧ x < hi`;
consequently `calc_psi` succeeds at the lower endpoint of its first
(nondegenerate) part's range, and panics (returns `none`) at any point that
is at or beyond every part's upper bound — in particular at the upper
endpoint of the last part's range in an assembled wave function, even though
that point bounds the constructed domain. -/
theorem c10_range_membership :
    (∀ (r : ℚ × ℚ) (x : ℚ), is_in_range r x ↔ r.1 ≤ x ∧ x < r.2) ∧
    (∀ (p : WFPart) (rest : List WFPart), p.1.1 < p.1.2 →
      calc_psi (p :: rest) p.1.1 = some (p.2 p.1.1)) ∧
    (∀ (parts : List WFPart) (b : ℚ), (∀ p ∈ parts, p.1.2 ≤ b) →
      calc_psi parts b = none) := by
  refine ⟨fun r x => Iff.rfl, fun p rest h => ?_, fun parts b h => ?_⟩
  · rw [calc_psi, if_pos ⟨le_refl _, h⟩]
  · induction parts with
    | nil => rfl
    | cons p rest ih =>
      have hp : ¬ is_in_range p.1 b := fun hb =>
        absurd hb.2 (not_lt.mpr (h p (List.mem_cons_self p rest)))
      rw [calc_psi, if_neg hp]
      exact ih fun q hq => h q (List.mem_cons_of_mem p hq)

/-- C10 (witness): a concrete two-part wave function with ranges
`[0,1)` and `[1,2)`: evaluation succeeds at the lower endpoint `0` of the
first range and fails at the upper endpoint `2` of the last range. -/
theorem c10_witness :
    calc_psi [((0, 1), fun _ => ((1 : ℚ), (0 : ℚ))),
        ((1, 2), fun _ => ((2 : ℚ), (0 : ℚ)))] 0 = some (1, 0) ∧
      calc_psi [((0, 1), fun _ => ((1 : ℚ), (0 : ℚ))),
        ((1, 2), fun _ => ((2 : ℚ), (0 : ℚ)))] 2 = none := by
  constructor
  · exact c10_range_membership.2.1 ((0, 1), fun _ => ((1 : ℚ), (0 : ℚ)))
      [((1, 2), fun _ => ((2 : ℚ), (0 : ℚ)))] (by norm_num)
  · refine c10_range_membership.2.2 _ 2 ?_
    intro p hp
    simp only [List.mem_cons, List.not_mem_nil, or_false] at hp
    rcases hp with rfl | rfl <;> norm_num

theorem foldl_mul_pow_eq_prod (x : ℚ) (l : List (ℤ × ℚ)) (a : ℚ) :
    l.foldl (fun acc nz => acc * (x - nz.2) ^ nz.1) a =
      a * (l.map fun nz => (x - nz.2) ^ nz.1).prod := by
  induction l generalizing a with
  | nil => simp
  | cons nz rest ih =>
    rw [List.foldl_cons, ih, List.map_cons, List.prod_cons]
    ring

/-- C7: the stateful deflating finder.  `modified_func(x)` equals `f(x)`
divided by the product of `(x - zᵢ)^{mᵢ}` over the recorded zeros, with
`precision` added to the divisor exactly when that product is `0`; and
`next_zero` returns the bounded Newton result on the modified function,
records nothing on `none`, and on `some z` appends `z` with multiplicity `2`
precisely when the absolute stencil derivative of the modified function at
`z` is below `precision`, and multiplicity `1` otherwise. -/
theorem c7_deflating_finder :
    (∀ (s : NewtonsMethodFindNewZero) (x : ℚ),
      s.modified_func x =
        s.f x /
          (if (s.previous_zeros.map fun nz => (x - nz.2) ^ nz.1).prod = 0 then
            (s.previous_zeros.map fun nz => (x - nz.2) ^ nz.1).prod + s.precision
          else (s.previous_zeros.map fun nz => (x - nz.2) ^ nz.1).prod)) ∧
    (∀ (s : NewtonsMethodFindNewZero) (guess : ℚ),
      (s.next_zero guess).1 =
        newtonsMethodMaxIters (fun x => s.modified_func x) guess s.precision s.max_iters ∧
      ((s.next_zero guess).1 = none → (s.next_zero guess).2 = s) ∧
      (∀ z, (s.next_zero guess).1 = some z →
        (s.next_zero guess).2.previous_zeros =
          s.previous_zeros ++
            [(if qabs (deriv5 (fun x => s.modified_func x) z) < s.precision then 2 else 1, z)])) := by
  constructor
  · intro s x
    rw [NewtonsMethodFindNewZero.modified_func]
    rw [foldl_mul_pow_eq_prod, one_mul]
  · intro s guess
    rcases h : newtonsMethodMaxIters (fun x => s.modified_func x) guess s.precision
      s.max_iters with _ | z
    · refine ⟨?_, fun _ => ?_, fun z hz => ?_⟩ <;>
        simp_all [NewtonsMethodFindNewZero.next_zero]
    · have h1 : (s.next_zero guess).1 = some z := by
        by_cases hd : qabs (deriv5 (fun x => s.modified_func x) z) < s.precision <;>
          simp [NewtonsMethodFindNewZero.next_zero, h, hd]
      refine ⟨h1, fun hnone => ?_, fun z' hz' => ?_⟩
      · rw [h1] at hnone
        exact absurd hnone (by simp)
      · rw [h1] at hz'
        obtain rfl := Option.some_inj.mp hz'
        by_cases hd : qabs (deriv5 (fun x => s.modified_func x) z) < s.precision <;>
          simp [NewtonsMethodFindNewZero.next_zero, h, hd]

/-- C7 (witness): a concrete run — `f(x) = x² - 4`, no recorded zeros,
precision `1`, cap `5`, guess `3`: the bounded search returns `3`, whose
modified-function derivative has absolute value `6 ≥ 1`, so `3` is recorded
with multiplicity `1`. -/
theorem c7_witness :
    ((NewtonsMethodFindNewZero.new (fun x => x * x - 4) 1 5).next_zero 3).2.previous_zeros =
      [] ++ [(if qabs (deriv5 (fun x =>
          (NewtonsMethodFindNewZero.new (fun x => x * x - 4) 1 5).modified_func x) 3) < 1
        then 2 else 1, 3)] := by
  refine (c7_deflating_finder.2 (NewtonsMethodFindNewZero.new (fun x => x * x - 4) 1 5) 3).2.2 3 ?_
  rw [(c7_deflating_finder.2 (NewtonsMethodFindNewZero.new (fun x => x * x - 4) 1 5) 3).1]
  have hmf : ∀ x : ℚ,
      (NewtonsMethodFindNewZero.new (fun x => x * x - 4) 1 5).modified_func x = x * x - 4 := by
    intro x
    rw [NewtonsMethodFindNewZero.modified_func]
    norm_num [NewtonsMethodFindNewZero.new]
  simp only [hmf]
  simp only [NewtonsMethodFindNewZero.new]
  norm_num [newtonsMethodMaxIters, deriv5, hEps, qabs]

theorem newtonR_value_converged (f : ℚ → ℚ) (p : ℚ) :
    ∀ (fuel : ℕ) (g z : ℚ), newtonsMethodR f g p fuel = .value z →
      deriv5 f z ≠ 0 ∧ qabs (f z / deriv5 f z) < p := by
  intro fuel
  induction fuel with
  | zero => intro g z h; exact absurd h (by simp [newtonsMethodR])
  | succ n ih =>
    intro g z h
    rw [show newtonsMethodR f g p (n + 1) =
        (if deriv5 f g = 0 then .panic
         else if qabs (f g / deriv5 f g) < p then .value g
         else newtonsMethodR f (g - f g / deriv5 f g) p n) from rfl] at h
    split_ifs at h with hd hs
    · cases h
      exact ⟨hd, hs⟩
    · exact ih _ _ h

theorem newtonR_panics_iff (f : ℚ → ℚ) (p g : ℚ) :
    (∃ fuel, newtonsMethodR f g p fuel = .panic) ↔ PanicsFrom f p g := by
  constructor
  · rintro ⟨fuel, h⟩
    induction fuel generalizing g with
    | zero => exact absurd h (by simp [newtonsMethodR])
    | succ n ih =>
      rw [show newtonsMethodR f g p (n + 1) =
          (if deriv5 f g = 0 then .panic
           else if qabs (f g / deriv5 f g) < p then .value g
           else newtonsMethodR f (g - f g / deriv5 f g) p n) from rfl] at h
      split_ifs at h with hd hs
      · exact PanicsFrom.here g hd
      · exact PanicsFrom.step g hd hs (ih _ h)
  · intro h
    induction h with
    | here g hd => exact ⟨1, by simp [newtonsMethodR, hd]⟩
    | step g hd hs _ ih =>
      obtain ⟨n, hn⟩ := ih
      exact ⟨n + 1, by simp [newtonsMethodR, hd, hs, hn]⟩

theorem maxIters_eq_toOption (f : ℚ → ℚ) (p : ℚ) :
    ∀ (n : ℕ) (g : ℚ),
      newtonsMethodMaxIters f g p n = (newtonsMethodR f g p n).toOption := by
  intro n
  induction n with
  | zero => intro g; simp [newtonsMethodMaxIters, newtonsMethodR, NewtonResult.toOption]
  | succ m ih =>
    intro g
    simp only [newtonsMethodMaxIters, newtonsMethodR]
    split_ifs with hd hs
    · simp [NewtonResult.toOption]
    · simp [NewtonResult.toOption]
    · exact ih _

/-- C6: the unbounded `newtons_method` panics exactly when the iteration
reaches an iterate whose stencil derivative is exactly zero (before any
iterate converges), and whenever it returns a value `z` the convergence
test held there: `|f(z)/f'(z)| < precision` (with a nonzero derivative);
`newtons_method_max_iters` never panics — it equals the fueled unbounded
iteration with both the panic and the fuel-exhaustion outcome collapsed to
`none`, so it returns `none` on a zero derivative or an exhausted iteration
cap, and `some` only upon convergence. -/
theorem c6_newton_failure_semantics (f : ℚ → ℚ) (g p : ℚ) :
    ((∃ fuel, newtonsMethodR f g p fuel = .panic) ↔ PanicsFrom f p g) ∧
    (∀ (fuel : ℕ) (z : ℚ), newtonsMethodR f g p fuel = .value z →
      deriv5 f z ≠ 0 ∧ qabs (f z / deriv5 f z) < p) ∧
    (∀ n : ℕ, newtonsMethodMaxIters f g p n = (newtonsMethodR f g p n).toOption) :=
  ⟨newtonR_panics_iff f p g, fun fuel z => newtonR_value_converged f p fuel g z,
    fun n => maxIters_eq_toOption f p n g⟩

/-- C6 (witness): for `f(x) = x² - 4`, guess `3`, precision `1`, one
iteration returns the value `3`, and the theorem yields that the
convergence test held there. -/
theorem c6_witness :
    deriv5 (fun x => x * x - 4) 3 ≠ 0 ∧
      qabs ((fun x : ℚ => x * x - 4) 3 / deriv5 (fun x => x * x - 4) 3) < 1 :=
  (c6_newton_failure_semantics (fun x => x * x - 4) 3 1).2.1 1 3
    (by norm_num [newtonsMethodR, deriv5, hEps, qabs])

theorem getLastD_irrel (l : List Pt) (h : l ≠ []) (d1 d2 : Pt) :
    l.getLastD d1 = l.getLastD d2 := by
  cases l with
  | nil => exact absurd rfl h
  | cons a l' =>
    rw [List.getLastD_eq_getLast?, List.getLastD_eq_getLast?,
      List.getLast?_eq_getLast (a :: l') (by simp)]
    rfl

theorem seqSum_append (A B : List Pt) (hA : A ≠ []) (hB : B ≠ []) :
    seqSum (A ++ B) =
      seqSum A + trapezoidal_approx (A.getLastD default) B.headI + seqSum B := by
  induction A with
  | nil => exact absurd rfl hA
  | cons a A' ih =>
    cases A' with
    | nil =>
      cases B with
      | nil => exact absurd rfl hB
      | cons b B' =>
        show seqSum (a :: b :: B') = seqSum [a] + trapezoidal_approx a b + seqSum (b :: B')
        rw [seqSum]
        show _ = 0 + _ + _
        abel
    | cons a2 A'' =>
      have h2 : (a2 :: A'') ≠ [] := by simp
      have hlast : (a :: a2 :: A'').getLastD default = (a2 :: A'').getLastD default := by
        rw [List.getLastD_cons]
        exact getLastD_irrel _ h2 a default
      show seqSum (a :: a2 :: (A'' ++ B)) = _
      rw [seqSum, show a2 :: (A'' ++ B) = (a2 :: A'') ++ B from rfl, ih h2, hlast,
        show seqSum (a :: a2 :: A'') = trapezoidal_approx a a2 + seqSum (a2 :: A'') from rfl]
      abel

theorem chunksGo_zero_eq (size : ℕ) (l : List Pt) (h : l ≠ []) :
    chunksGo size 0 l = [l] := by
  obtain ⟨x, l', rfl⟩ := List.exists_cons_of_ne_nil h
  rfl

theorem chunksGo_succ_eq (size fuel : ℕ) (l : List Pt) (h : l ≠ []) :
    chunksGo size (fuel + 1) l =
      if l.length ≤ size then [l]
      else l.take size :: chunksGo size fuel (l.drop size) := by
  obtain ⟨x, l', rfl⟩ := List.exists_cons_of_ne_nil h
  rfl

theorem chunksGo_ne_nil (size fuel : ℕ) (l : List Pt) (h : l ≠ []) :
    chunksGo size fuel l ≠ [] := by
  cases fuel with
  | zero => simp [chunksGo_zero_eq size l h]
  | succ n =>
    rw [chunksGo_succ_eq size n l h]
    split <;> simp

theorem chunksGo_head_head (size fuel : ℕ) (hs : 1 ≤ size) (l : List Pt) (h : l ≠ []) :
    (chunksGo size fuel l).headI.headI = l.headI := by
  cases fuel with
  | zero =>
    rw [chunksGo_zero_eq size l h]
    simp
  | succ n =>
    rw [chunksGo_succ_eq size n l h]
    obtain ⟨x, l', rfl⟩ := List.exists_cons_of_ne_nil h
    split
    · simp
    · obtain ⟨m, rfl⟩ := Nat.exists_eq_add_of_le hs
      simp [List.take_cons]

theorem boundarySum_cons (A : List Pt) (CH : List (List Pt)) (h : CH ≠ []) :
    boundarySum (A :: CH) =
      trapezoidal_approx (A.getLastD default) CH.headI.headI + boundarySum CH := by
  obtain ⟨c1, rest, rfl⟩ := List.exists_cons_of_ne_nil h
  rfl

theorem chunksGo_recombine (size : ℕ) (hs : 1 ≤ size) :
    ∀ (fuel : ℕ) (l : List Pt), l ≠ [] → l.length ≤ fuel + 1 →
      ((chunksGo size fuel l).map seqSum).sum + boundarySum (chunksGo size fuel l) =
        seqSum l := by
  intro fuel
  induction fuel with
  | zero =>
    intro l h hlen
    rw [chunksGo_zero_eq size l h]
    show seqSum l + 0 + 0 = seqSum l
    abel
  | succ n ih =>
    intro l h hlen
    rw [chunksGo_succ_eq size n l h]
    by_cases hsmall : l.length ≤ size
    · rw [if_pos hsmall]
      show seqSum l + 0 + 0 = seqSum l
      abel
    · rw [if_neg hsmall]
      push_neg at hsmall
      have hA : l.take size ≠ [] := by
        intro hcon
        rcases List.take_eq_nil_iff.mp hcon with h0 | h0
        · omega
        · exact h h0
      have hB : l.drop size ≠ [] := by
        intro hcon
        rw [List.drop_eq_nil_iff] at hcon
        omega
      have hBlen : (l.drop size).length ≤ n + 1 := by
        rw [List.length_drop]
        omega
      have hCH := chunksGo_ne_nil size n (l.drop size) hB
      rw [List.map_cons, List.sum_cons, boundarySum_cons _ _ hCH,
        chunksGo_head_head size n hs _ hB]
      have hrec := ih (l.drop size) hB hBlen
      calc seqSum (l.take size) + ((chunksGo size n (l.drop size)).map seqSum).sum +
            (trapezoidal_approx ((l.take size).getLastD default) (l.drop size).headI +
              boundarySum (chunksGo size n (l.drop size)))
          = seqSum (l.take size) +
              trapezoidal_approx ((l.take size).getLastD default) (l.drop size).headI +
              (((chunksGo size n (l.drop size)).map seqSum).sum +
                boundarySum (chunksGo size n (l.drop size))) := by abel
        _ = seqSum (l.take size) +
              trapezoidal_approx ((l.take size).getLastD default) (l.drop size).headI +
              seqSum (l.drop size) := by rw [hrec]
        _ = seqSum (l.take size ++ l.drop size) := (seqSum_append _ _ hA hB).symm
        _ = seqSum l := by rw [List.take_append_drop]

theorem integrate_eq_seqSum (points : List Pt) (c : ℕ) (hc : 1 ≤ c) :
    integrate points c = seqSum points := by
  by_cases h2 : points.length < 2
  · rw [integrate, if_pos h2]
    match points, h2 with
    | [], _ => rfl
    | [_], _ => rfl
  · rw [integrate, if_neg h2]
    have hne : points ≠ [] := by
      intro hcon
      rw [hcon] at h2
      exact h2 (by simp)
    exact chunksGo_recombine c hc points.length points hne (by omega)

/-- C3: for every fixed point sequence, `integrate(points, chunk_size)`
returns the same value for every chunk size ≥ 1 — the parallel per-chunk
trapezoid sums plus the sequentially added cross-chunk boundary panels
reproduce the single composite trapezoidal result (`seqSum`) exactly, so the
result is independent of the chunk size.  (In this exact-arithmetic
embedding "bit-for-bit" equality is literal equality.) -/
theorem c3_integrate_chunk_invariant (points : List Pt) (c : ℕ) (hc : 1 ≤ c) :
    integrate points c = seqSum points ∧ integrate points c = integrate points 1 :=
  ⟨integrate_eq_seqSum points c hc,
    (integrate_eq_seqSum points c hc).trans (integrate_eq_seqSum points 1 (le_refl 1)).symm⟩

/-- C3 (witness): five concrete sample points of `x ↦ x²` integrated with
chunk size 3 agree with the composite rule and with chunk size 1. -/
theorem c3_witness :
    integrate [⟨0, (0, 0)⟩, ⟨1, (1, 0)⟩, ⟨2, (4, 0)⟩, ⟨3, (9, 0)⟩, ⟨4, (16, 0)⟩] 3 =
        seqSum [⟨0, (0, 0)⟩, ⟨1, (1, 0)⟩, ⟨2, (4, 0)⟩, ⟨3, (9, 0)⟩, ⟨4, (16, 0)⟩] ∧
      integrate [⟨0, (0, 0)⟩, ⟨1, (1, 0)⟩, ⟨2, (4, 0)⟩, ⟨3, (9, 0)⟩, ⟨4, (16, 0)⟩] 3 =
        integrate [⟨0, (0, 0)⟩, ⟨1, (1, 0)⟩, ⟨2, (4, 0)⟩, ⟨3, (9, 0)⟩, ⟨4, (16, 0)⟩] 1 :=
  c3_integrate_chunk_invariant _ 3 (by norm_num)

theorem augmentedDerivs_entries (zeros : List ℚ) (phase : Phase) (fuel : ℕ)
    (ds : List (ℚ × ℚ)) (h : augmentedDerivs zeros phase fuel = some ds) :
    ∀ dt ∈ ds, dt.1 = signumF64 (deriv5 (fun x => validity_func phase x) dt.2) := by
  rw [augmentedDerivs] at h
  set valid : ℚ → ℚ := fun x => validity_func phase x with hvalid
  set derivs := (zeros.insertionSort (· ≤ ·)).map
    (fun z => (signumF64 (deriv5 valid z), z)) with hderivs
  have hP : ∀ dt ∈ derivs, dt.1 = signumF64 (deriv5 valid dt.2) := by
    intro dt hdt
    rw [hderivs] at hdt
    obtain ⟨z, _, rfl⟩ := List.mem_map.mp hdt
    rfl
  have hfront : ∀ ds' : List (ℚ × ℚ),
      (match derivs.head? with
        | some dz =>
          if dz.1 < 0 then
            (frontLoop valid fuel fuel (dz.2 - sqrtQ ACCURACY)).map
              fun t => (signumF64 (deriv5 valid t), t) :: derivs
          else some derivs
        | none => some derivs) = some ds' →
      ∀ dt ∈ ds', dt.1 = signumF64 (deriv5 valid dt.2) := by
    intro ds' h'
    rcases hh : derivs.head? with _ | dz
    · simp only [hh] at h'
      cases h'
      exact hP
    · simp only [hh] at h'
      by_cases hneg : dz.1 < 0
      · rw [if_pos hneg] at h'
        rcases hfl : frontLoop valid fuel fuel (dz.2 - sqrtQ ACCURACY) with _ | t
        · rw [hfl] at h'
          exact absurd h' (by simp)
        · simp only [hfl, Option.map_some'] at h'
          cases h'
          intro dt hdt
          rcases List.mem_cons.mp hdt with rfl | hmem
          · rfl
          · exact hP dt hmem
      · rw [if_neg hneg] at h'
        cases h'
        exact hP
  rcases hwf : (match derivs.head? with
      | some dz =>
        if dz.1 < 0 then
          (frontLoop valid fuel fuel (dz.2 - sqrtQ ACCURACY)).map
            fun t => (signumF64 (deriv5 valid t), t) :: derivs
        else some derivs
      | none => some derivs) with _ | ds1
  · rw [hwf] at h
    cases h
  · rw [hwf] at h
    have hP1 := hfront ds1 hwf
    simp only [Option.some_bind] at h
    rcases hl : ds1.getLast? with _ | dz
    · simp only [hl] at h
      cases h
      exact hP1
    · simp only [hl] at h
      by_cases hpos : 0 < dz.1
      · rw [if_pos hpos] at h
        rcases hbl : backLoop valid fuel fuel (dz.2 + sqrtQ ACCURACY) with _ | t
        · rw [hbl] at h
          exact absurd h (by simp)
        · simp only [hbl, Option.map_some'] at h
          cases h
          intro dt hdt
          rcases List.mem_append.mp hdt with hmem | hmem
          · exact hP1 dt hmem
          · rcases List.mem_singleton.mp hmem with rfl
            rfl
      · rw [if_neg hpos] at h
        cases h
        exact hP1

theorem pairUp_sound (phase : Phase) (fuel : ℕ) :
    ∀ (ds : List (ℚ × ℚ)) (G : List ((ℚ × ℚ) × ℚ)), pairUp phase fuel ds = some G →
      ds.length = 2 * G.length ∧
      ∀ ttp ∈ G,
        (∃ d1 d2, (d1, ttp.1.1) ∈ ds ∧ (d2, ttp.1.2) ∈ ds ∧ 0 < d1 ∧ d2 < 0) ∧
        newtonsMethodR (fun x => phase.energy - phase.potential x)
          ((ttp.1.1 + ttp.1.2) / 2) (1 / 10 ^ 7) fuel = .value ttp.2
  | [], G, h => by
    cases h
    exact ⟨rfl, by intro ttp hm; cases hm⟩
  | [d], G, h => by
    exact absurd h (by rw [show pairUp phase fuel [d] = none from rfl]; simp)
  | (d1, t1) :: (d2, t2) :: rest, G, h => by
    rw [show pairUp phase fuel ((d1, t1) :: (d2, t2) :: rest) =
        (if 0 < d1 then
          if d2 < 0 then
            match newtonsMethodR (fun x => phase.energy - phase.potential x)
                ((t1 + t2) / 2) (1 / 10 ^ 7) fuel with
            | .value turning_point =>
              (pairUp phase fuel rest).map fun g => ((t1, t2), turning_point) :: g
            | _ => none
          else none
        else none) from rfl] at h
    split_ifs at h with h1 h2
    rcases hn : newtonsMethodR (fun x => phase.energy - phase.potential x)
        ((t1 + t2) / 2) (1 / 10 ^ 7) fuel with _ | tp | _
    · simp only [hn] at h
      exact absurd h (by simp)
    · simp only [hn] at h
      rcases hp : pairUp phase fuel rest with _ | L
      · rw [hp] at h
        exact absurd h (by simp)
      · rw [hp] at h
        simp only [Option.map_some'] at h
        cases h
        obtain ⟨ihlen, ihmem⟩ := pairUp_sound phase fuel rest L hp
        refine ⟨by simp only [List.length_cons, ihlen]; ring, ?_⟩
        intro ttp hm
        rcases List.mem_cons.mp hm with rfl | hmL
        · exact ⟨⟨d1, d2, List.mem_cons_self _ _,
            List.mem_cons_of_mem _ (List.mem_cons_self _ _), h1, h2⟩, hn⟩
        · obtain ⟨⟨e1, e2, m1, m2, p1, p2⟩, hnw⟩ := ihmem ttp hmL
          exact ⟨⟨e1, e2, List.mem_cons_of_mem _ (List.mem_cons_of_mem _ m1),
            List.mem_cons_of_mem _ (List.mem_cons_of_mem _ m2), p1, p2⟩, hnw⟩
    · simp only [hn] at h
      exact absurd h (by simp)

theorem group_ts_sound (zeros : List ℚ) (phase : Phase) (fuel : ℕ) (G : TGroup)
    (h : group_ts zeros phase fuel = some G) :
    ∃ ds, augmentedDerivs zeros phase fuel = some ds ∧ ds.length % 2 = 0 ∧
      ds.length = 2 * G.ts.length ∧
      ∀ ttp ∈ G.ts,
        0 < signumF64 (deriv5 (fun x => validity_func phase x) ttp.1.1) ∧
        signumF64 (deriv5 (fun x => validity_func phase x) ttp.1.2) < 0 ∧
        newtonsMethodR (fun x => phase.energy - phase.potential x)
          ((ttp.1.1 + ttp.1.2) / 2) (1 / 10 ^ 7) fuel = .value ttp.2 := by
  rw [group_ts] at h
  rcases ha : augmentedDerivs zeros phase fuel with _ | ds
  · rw [ha] at h
    cases h
  · rw [ha] at h
    simp only [Option.some_bind] at h
    by_cases hev : ds.length % 2 = 0
    · rw [if_pos hev] at h
      rcases hp : pairUp phase fuel ds with _ | L
      · rw [hp] at h
        exact absurd h (by simp)
      · rw [hp] at h
        simp only [Option.map_some'] at h
        cases h
        obtain ⟨hlen, hmem⟩ := pairUp_sound phase fuel ds L hp
        have hent := augmentedDerivs_entries zeros phase fuel ds ha
        refine ⟨ds, rfl, hev, hlen, ?_⟩
        intro ttp hm
        obtain ⟨⟨dd1, dd2, m1, m2, p1, p2⟩, hnw⟩ := hmem ttp hm
        have e1 := hent _ m1
        have e2 := hent _ m2
        exact ⟨e1 ▸ p1, e2 ▸ p2, hnw⟩
    · rw [if_neg hev] at h
      cases h

/-- C5 (amended): every `TGroup` successfully produced by `group_ts` — and
hence by `calc_ts`, for any behaviour of the `f64::exp` collaborator used by
`make_guess` — satisfies: after synthetic edge-zero insertion the
boundary-zero list has even length and is consumed completely into pairs;
in each pair `(t1, t2)` the validity-derivative sign is positive at `t1` and
negative at `t2`; and the stored interior turning point is the result of the
unbounded Newton iteration on `energy - potential` seeded at the pair's
midpoint with precision `1e-7`.  (The claim's further assertion that this
turning point lies strictly between `t1` and `t2` is not guaranteed and is
refuted by `c5_counterexample`.) -/
theorem c5_turning_point_pairing :
    (∀ (zeros : List ℚ) (phase : Phase) (fuel : ℕ) (G : TGroup),
      group_ts zeros phase fuel = some G →
      ∃ ds, augmentedDerivs zeros phase fuel = some ds ∧ ds.length % 2 = 0 ∧
        ds.length = 2 * G.ts.length ∧
        ∀ ttp ∈ G.ts,
          0 < signumF64 (deriv5 (fun x => validity_func phase x) ttp.1.1) ∧
          signumF64 (deriv5 (fun x => validity_func phase x) ttp.1.2) < 0 ∧
          newtonsMethodR (fun x => phase.energy - phase.potential x)
            ((ttp.1.1 + ttp.1.2) / 2) (1 / 10 ^ 7) fuel = .value ttp.2) ∧
    (∀ (expf : ℚ → ℚ) (phase : Phase) (view : ℚ × ℚ) (fuel : ℕ) (G : TGroup),
      calc_ts expf phase view fuel = some G →
      ∃ ds, augmentedDerivs (find_zeros expf phase view) phase fuel = some ds ∧
        ds.length % 2 = 0 ∧ ds.length = 2 * G.ts.length ∧
        ∀ ttp ∈ G.ts,
          0 < signumF64 (deriv5 (fun x => validity_func phase x) ttp.1.1) ∧
          signumF64 (deriv5 (fun x => validity_func phase x) ttp.1.2) < 0 ∧
          newtonsMethodR (fun x => phase.energy - phase.potential x)
            ((ttp.1.1 + ttp.1.2) / 2) (1 / 10 ^ 7) fuel = .value ttp.2) :=
  ⟨fun zeros phase fuel G h => group_ts_sound zeros phase fuel G h,
    fun expf phase view fuel G h =>
      group_ts_sound (find_zeros expf phase view) phase fuel G h⟩

theorem group_ts_ce_eval :
    group_ts [101 / 20, 11 / 2] ⟨-4, 1 / 2, fun t => -((t - 3) ^ 2)⟩ 10 =
      some ⟨[(((101 : ℚ) / 20, (11 : ℚ) / 2),
        (913858374711208481 : ℚ) / 182771674899369920)]⟩ := by
  have hnewt : newtonsMethodR
      (fun x => (⟨-4, 1 / 2, fun t => -((t - 3) ^ 2)⟩ : Phase).energy -
        (⟨-4, 1 / 2, fun t => -((t - 3) ^ 2)⟩ : Phase).potential x)
      ((101 / 20 + 11 / 2) / 2) (1 / 10 ^ 7) 10 =
        .value ((913858374711208481 : ℚ) / 182771674899369920) := by
    show newtonsMethodR (fun x => (-4 : ℚ) - -((x - 3) ^ 2))
      ((101 / 20 + 11 / 2) / 2) (1 / 10 ^ 7) 10 = _
    rw [show (10 : ℕ) = 9 + 1 from rfl, newtonsMethodR]
    norm_num [deriv5, hEps, qabs]
    rw [show (9 : ℕ) = 8 + 1 from rfl, newtonsMethodR]
    norm_num [deriv5, hEps, qabs]
    rw [show (8 : ℕ) = 7 + 1 from rfl, newtonsMethodR]
    norm_num [deriv5, hEps, qabs]
    rw [show (7 : ℕ) = 6 + 1 from rfl, newtonsMethodR]
    norm_num [deriv5, hEps, qabs]
  have haug : augmentedDerivs [101 / 20, 11 / 2]
      ⟨-4, 1 / 2, fun t => -((t - 3) ^ 2)⟩ 10 =
      some [((1 : ℚ), (101 : ℚ) / 20), ((-1 : ℚ), (11 : ℚ) / 2)] := by
    norm_num [augmentedDerivs, validity_func, deriv5, hEps, qabs, sqrtQ, signumF64,
      List.insertionSort, List.orderedInsert]
  rw [group_ts, haug]
  simp only [Option.some_bind]
  rw [if_pos (by norm_num)]
  simp only [pairUp]
  rw [if_pos (by norm_num : (0 : ℚ) < 1), if_pos (by norm_num : (-1 : ℚ) < 0), hnewt]
  rfl

/-- C5 (counterexample): for the phase `E = -4`, `m = 1/2`,
`U(x) = -(x-3)²` and boundary zeros `t1 = 101/20 = 5.05`, `t2 = 11/2 = 5.5`
(whose validity-derivative signs are `+`/`-` as required), `group_ts`
succeeds and stores the turning point `913858374711208481/182771674899369920
≈ 5.0000000012`, which does not lie strictly between `t1` and `t2`: Newton
on `energy - potential` seeded at the midpoint `5.275` converges to the
`U = E` crossing at `x ≈ 5`, outside the bracket. -/
theorem c5_counterexample :
    group_ts [101 / 20, 11 / 2] ⟨-4, 1 / 2, fun t => -((t - 3) ^ 2)⟩ 10 =
      some ⟨[(((101 : ℚ) / 20, (11 : ℚ) / 2),
        (913858374711208481 : ℚ) / 182771674899369920)]⟩ ∧
    ¬((101 : ℚ) / 20 < (913858374711208481 : ℚ) / 182771674899369920 ∧
      (913858374711208481 : ℚ) / 182771674899369920 < (11 : ℚ) / 2) := by
  refine ⟨group_ts_ce_eval, ?_⟩
  rintro ⟨h1, -⟩
  norm_num at h1

/-- C5 (witness): the amended theorem applied to the concrete successful
`group_ts` run of `c5_counterexample`, discharging its hypothesis. -/
theorem c5_witness :
    ∃ ds, augmentedDerivs [101 / 20, 11 / 2]
        ⟨-4, 1 / 2, fun t => -((t - 3) ^ 2)⟩ 10 = some ds ∧
      ds.length % 2 = 0 ∧
      ds.length = 2 * (TGroup.mk [(((101 : ℚ) / 20, (11 : ℚ) / 2),
        (913858374711208481 : ℚ) / 182771674899369920)]).ts.length ∧
      ∀ ttp ∈ (TGroup.mk [(((101 : ℚ) / 20, (11 : ℚ) / 2),
          (913858374711208481 : ℚ) / 182771674899369920)]).ts,
        0 < signumF64 (deriv5
          (fun x => validity_func ⟨-4, 1 / 2, fun t => -((t - 3) ^ 2)⟩ x) ttp.1.1) ∧
        signumF64 (deriv5
          (fun x => validity_func ⟨-4, 1 / 2, fun t => -((t - 3) ^ 2)⟩ x) ttp.1.2) < 0 ∧
        newtonsMethodR (fun x => (⟨-4, 1 / 2, fun t => -((t - 3) ^ 2)⟩ : Phase).energy -
            (⟨-4, 1 / 2, fun t => -((t - 3) ^ 2)⟩ : Phase).potential x)
          ((ttp.1.1 + ttp.1.2) / 2) (1 / 10 ^ 7) 10 = .value ttp.2 :=
  c5_turning_point_pairing.1 [101 / 20, 11 / 2]
    ⟨-4, 1 / 2, fun t => -((t - 3) ^ 2)⟩ 10
    (TGroup.mk [(((101 : ℚ) / 20, (11 : ℚ) / 2),
      (913858374711208481 : ℚ) / 182771674899369920)])
    group_ts_ce_eval

/-- C1: evaluation of the renormalization pass at a concrete input,
exhibiting the defect.  For the constant wave function `ψ ≡ 2` on a single
part covering the sampling interval, `approx_inf = (0, 1)`, scale `s = 1`,
5 integration samples and chunk size 2: the norm-squared area of the
`s`-scaled wave function is `(2⁵² - 1)/2⁵⁰ = 4 - 2⁻⁵⁰` (the `(1 - ε)`
shrink of the outer bounds accounts for the `-2⁻⁵⁰`); `Renormalize`
multiplies the scale by `1/area`, so the norm-squared area of the assembled
wave function is `1/area = 2⁵⁰/(2⁵² - 1) ≈ 1/4`, not `1`: the integral of
`|ψ|²` after a `Renormalize` request is `1/area` rather than `1` (the
correct factor would divide by `√area`).  Every sample point lies inside
the part's range, so no out-of-range panic is hidden by the embedding. -/
theorem c1_renormalize_eval :
    areaOf (WF.eval (mkWaveFunction [((-10, 10), fun _ => ((2 : ℚ), 0))] (0, 1) 5 2
        (.Mul (1, 0)))) (0, 1) 5 2 = (2 ^ 52 - 1) / 2 ^ 50 ∧
    areaOf (WF.eval (mkWaveFunction [((-10, 10), fun _ => ((2 : ℚ), 0))] (0, 1) 5 2
        (.Renormalize (1, 0)))) (0, 1) 5 2 = 2 ^ 50 / (2 ^ 52 - 1) ∧
    ((2 : ℚ) ^ 50 / (2 ^ 52 - 1)) ≠ 1 ∧
    (evaluate_function_between
        (WF.eval (mkWaveFunction [((-10, 10), fun _ => ((2 : ℚ), 0))] (0, 1) 5 2
          (.Renormalize (1, 0)))) (0 * (1 - eps52)) (1 * (1 - eps52)) 5).all
      (fun p => (calc_psi [((-10, 10), fun _ => ((2 : ℚ), 0))] p.x).isSome) = true := by
  refine ⟨?_, ?_, by norm_num, ?_⟩ <;>
    norm_num [areaOf, WF.eval, mkWaveFunction, renormalize_factor, integrate, chunks,
      chunksGo, evaluate_function_between, index_to_range, eps52, normSq, seqSum,
      boundarySum, trapezoidal_approx, cMul, cDiv, calc_psi, is_in_range, List.range_succ]
